import Mathlib

/-!
Verification of the coredns-blocklist plugin (Go sources `blocklist.go`,
`setup.go`) via a shallow embedding in Lean 4.

Domain names are Go strings, modelled as Lean `String`.  The Go standard
library functions `strings.Split` and `strings.Join` are embedded as
executable Lean functions over the underlying character lists, faithful to
Go semantics (`strings.Split("", ".") = [""]`, n+1 parts around n
separators).  A Go `map[string]bool` table is modelled as a `List String`
with exact-string membership.
-/

namespace Blocklist

/-- Embedding of Go `strings.Split(s, sep)` for a one-character separator,
on the character list: splitting `[]` yields `[[]]`, and each occurrence of
`sep` starts a new part. -/
def splitChars (sep : Char) : List Char → List (List Char)
  | [] => [[]]
  | c :: cs =>
    let r := splitChars sep cs
    if c = sep then
      [] :: r
    else
      match r with
      | [] => [[c]]
      | h :: t => (c :: h) :: t

/-- Embedding of Go `strings.Join(parts, sep)` for a one-character
separator, on character lists. -/
def joinChars (sep : Char) : List (List Char) → List Char
  | [] => []
  | [l] => l
  | l :: ls => l ++ sep :: joinChars sep ls

/-- Go `strings.Split(s, ".")` on `String`. -/
def stringsSplitDot (s : String) : List String :=
  (splitChars '.' s.data).map String.mk

/-- Go `strings.Join(parts, ".")` on `String`. -/
def stringsJoinDot (parts : List String) : String :=
  String.mk (joinChars '.' (parts.map String.data))

/-- Lines 112–119 of `blocklist.go`: `n := strings.Join(nameParts[i:], ".")`
followed by the substitution of the zero-length string by the DNS root
`"."`. -/
def canonSuffix (parts : List String) : String :=
  let n := stringsJoinDot parts
  if n.length = 0 then "." else n

/-- The loop body of `inList` (`blocklist.go` lines 111–128): walk the
non-empty tails of the label list (Go `for i := range nameParts` joining
`nameParts[i:]`), returning true on the first suffix found in the table. -/
def inListAux (domainList : List String) : List String → Bool
  | [] => false
  | p :: rest =>
    if domainList.contains (canonSuffix (p :: rest)) then true
    else inListAux domainList rest

/-- Function `inList` from `blocklist.go` lines 107–131: membership of any ancestor
suffix of `name` in the table. -/
def inList (name : String) (domainList : List String) : Bool :=
  inListAux domainList (stringsSplitDot name)

/-- The list of suffixes actually probed by the walk of `inList`: every
suffix obtained by dropping leading labels of the name (keeping at least
one label), the empty join standing for the canonical root `"."`. -/
def ancestorSuffixes : List String → List String
  | [] => []
  | p :: rest => canonSuffix (p :: rest) :: ancestorSuffixes rest

/-- The ancestor suffixes of a name: `name` itself down to the last label
(which is the canonical root `"."` for a fully-qualified name). -/
def ancestorSuffixesOf (name : String) : List String :=
  ancestorSuffixes (stringsSplitDot name)

/-- Predicate: the string ends with the delimiter character. -/
def endsWithDot (s : String) : Prop := s.data.getLast? = some '.'

instance (s : String) : Decidable (endsWithDot s) := by
  unfold endsWithDot; infer_instance

/-- Constant `dns.RcodeNameError` (NXDOMAIN) from the Go dns library. -/
def RcodeNameError : Nat := 3

/-- Constant `dns.RcodeRefused` from the Go dns library. -/
def RcodeRefused : Nat := 5

/-- The `Blocklist` engine state relevant to query handling: the two
tables (`syncMap` contents, here plain sets of strings), the per-domain
metrics flag and the configured block response code
(`blocklist.go` lines 24–34). -/
structure BL where
  blockDomains : List String
  allowDomains : List String
  domainMetrics : Bool
  blockResponse : Nat

/-- Constructor `New()` from `blocklist.go` lines 36–44: empty tables, no domain
metrics, block response `dns.RcodeNameError`. -/
def New : BL :=
  { blockDomains := []
    allowDomains := []
    domainMetrics := false
    blockResponse := RcodeNameError }

/-- Function `shouldBlock` from `blocklist.go` lines 94–105: hard-coded exemption
for the exact name `"localhost."`, otherwise independent membership walks
over the block and allow tables. -/
def shouldBlock (b : BL) (name : String) : Bool × Bool :=
  if name = "localhost." then (false, false)
  else (inList name b.blockDomains, inList name b.allowDomains)

/-- Result of invoking the next plugin in the chain
(`plugin.NextOrFailure`), treated as an opaque environment input. -/
structure NextResult where
  rcode : Nat
  err : Bool

/-- The observable outcome of one `ServeDNS` invocation: whether a block
response was synthesized and how many times the write was attempted,
whether the next handler was invoked, the returned rcode/error, the
counter increments, and whether a write failure was logged. -/
structure ServeOutcome where
  wroteBlockResponse : Bool
  writeAttempts : Nat
  calledNext : Bool
  rcode : Nat
  err : Bool
  blockCountInc : Nat
  allowCountInc : Nat
  blockDomainCountInc : Nat
  allowDomainCountInc : Nat
  loggedWriteError : Bool

/-- Handler `ServeDNS` from `blocklist.go` lines 49–90.  `writeOk` models whether
`w.WriteMsg` succeeds; `next` models the result of the next handler in
the chain.  On block: one write of the configured response code (failure
only logged), counters incremented, return `(b.blockResponse, nil)`
without calling the next handler.  On a simultaneous allow match: allow
counters incremented and the query delegated.  Otherwise: plain
delegation. -/
def ServeDNS (b : BL) (name : String) (writeOk : Bool)
    (next : NextResult) : ServeOutcome :=
  let s := shouldBlock b name
  if s.1 then
    if s.2 then
      { wroteBlockResponse := false
        writeAttempts := 0
        calledNext := true
        rcode := next.rcode
        err := next.err
        blockCountInc := 0
        allowCountInc := 1
        blockDomainCountInc := 0
        allowDomainCountInc := if b.domainMetrics then 1 else 0
        loggedWriteError := false }
    else
      { wroteBlockResponse := true
        writeAttempts := 1
        calledNext := false
        rcode := b.blockResponse
        err := false
        blockCountInc := 1
        allowCountInc := 0
        blockDomainCountInc := if b.domainMetrics then 1 else 0
        allowDomainCountInc := 0
        loggedWriteError := !writeOk }
  else
    { wroteBlockResponse := false
      writeAttempts := 0
      calledNext := true
      rcode := next.rcode
      err := next.err
      blockCountInc := 0
      allowCountInc := 0
      blockDomainCountInc := 0
      allowDomainCountInc := 0
      loggedWriteError := false }

/-- The two currently-installed tables of one engine instance. -/
structure Tables where
  blockDomains : List String
  allowDomains : List String
deriving DecidableEq

/-- Function `readBlocklist` from `blocklist.go` lines 133–157.  `loadList` and
`toMap` live in a source file not available here; per the spec, `loadList`
fetches and parses a list source and returns a sequence of domain strings
or an error, and its result (per list) is passed in as an environment
input.  On block-list error: return with no change.  On success: install
the new block table, then, when an allow list is configured, load it;
on allow-list error return (the block table stays installed), on success
install the new allow table. -/
def readBlocklist (allowlistLocation : String)
    (loadBlockResult loadAllowResult : Except String (List String))
    (t : Tables) : Tables :=
  match loadBlockResult with
  | Except.error _ => t
  | Except.ok blocklist =>
    let t := { t with blockDomains := blocklist }
    if allowlistLocation ≠ "" then
      match loadAllowResult with
      | Except.error _ => t
      | Except.ok allowlist => { t with allowDomains := allowlist }
    else t

/-- Function `getBlockResponseCode` from `setup.go` lines 84–93. -/
def getBlockResponseCode (blockResponse : String) : Except String Nat :=
  if blockResponse = "nxdomain" then Except.ok RcodeNameError
  else if blockResponse = "refused" then Except.ok RcodeRefused
  else Except.error ("unknown response code " ++ blockResponse ++ ", must be either nxdomain or refused")

/-- The result of Go `os.Stat` on the configured path, treated as an
environment input to `checkFileorURL`. -/
inductive StatResult
  | statOk (isDir : Bool)
  | errNotExist
  | errOther (msg : String)

/-- Function `checkFileorURL` from `setup.go` lines 109–130.  `parseRequestURIOk`
models whether `url.ParseRequestURI(file)` succeeds (it does for URLs and
for absolute local paths), `stat` the result of `os.Stat` on the
(root-joined) path.  A URI-parsable location is accepted unchecked; a
stat error other than not-exist is fatal; a missing file or a directory
is only warned about and the location is accepted. -/
def checkFileorURL (parseRequestURIOk : Bool) (stat : StatResult)
    (file : String) : Except String String :=
  if parseRequestURIOk then Except.ok file
  else
    match stat with
    | StatResult.errOther msg =>
      Except.error ("unable to access hosts file " ++ file ++ ": " ++ msg)
    | StatResult.errNotExist => Except.ok file
    | StatResult.statOk _ => Except.ok file

/-- The `reload` case of `parseStanza` (`setup.go` lines 180–192).
`parseDuration` models Go `time.ParseDuration` (standard library,
environment input): `none` on parse failure, otherwise the duration in
nanoseconds.  A missing/extra argument or an unparsable or negative
duration is a configuration error. -/
def parseReloadArg (remaining : List String)
    (parseDuration : String → Option Int) : Except String Int :=
  match remaining with
  | [arg] =>
    match parseDuration arg with
    | none => Except.error ("invalid duration for reload " ++ arg)
    | some reload =>
      if reload < 0 then
        Except.error ("invalid negative duration for reload " ++ arg)
      else Except.ok reload
  | _ => Except.error "reload needs a duration (zero seconds to disable)"

/-- State of the background reload goroutine of `periodicHostsUpdate`
(`setup.go` lines 26–37): running the select loop, or returned. -/
inductive TaskState
  | running
  | stopped
deriving DecidableEq

/-- Events the select loop can observe: a ticker tick, or the shutdown
signal (the `parseChan` case, taken when the channel is closed). -/
inductive TaskEvent
  | tick
  | signal
deriving DecidableEq

/-- One iteration of the select loop of `periodicHostsUpdate`: on a tick
the task fires `readBlocklist` (the `Bool` records a rebuild firing) and
loops; on the shutdown signal it returns.  A returned task observes
nothing further and fires nothing. -/
def taskStep : TaskState → TaskEvent → TaskState × Bool
  | TaskState.running, TaskEvent.tick => (TaskState.running, true)
  | TaskState.running, TaskEvent.signal => (TaskState.stopped, false)
  | TaskState.stopped, _ => (TaskState.stopped, false)

/-- Run the reload task over a sequence of observed events, counting the
rebuilds it fires. -/
def taskRun : TaskState → List TaskEvent → TaskState × Nat
  | s, [] => (s, 0)
  | s, e :: es =>
    let r := taskStep s e
    let rest := taskRun r.1 es
    (rest.1, (if r.2 then 1 else 0) + rest.2)

/-- Function `periodicHostsUpdate` from `setup.go` lines 19–39: with a zero reload
period the goroutine is never spawned (`none`); otherwise a task is
started in the running state. -/
def periodicHostsUpdate (reload : Int) : Option TaskState :=
  if reload = 0 then none else some TaskState.running

/-- Rebuilds fired by the background machinery after startup, over a
sequence of events: zero when no task was started. -/
def rebuildsAfterStartup (reload : Int) (evs : List TaskEvent) : Nat :=
  match periodicHostsUpdate reload with
  | none => 0
  | some s => (taskRun s evs).2

/-- Total number of table loads of one engine instance: the one mandatory
startup load (`c.OnStartup` calls `readBlocklist` once, `setup.go`
lines 70–73) plus the rebuilds fired by the background task. -/
def totalLoads (reload : Int) (evs : List TaskEvent) : Nat :=
  1 + rebuildsAfterStartup reload evs

end Blocklist

namespace Blocklist

-- sanity examples for the embedding
example : stringsSplitDot "bad.domain." = ["bad", "domain", ""] := by rfl
example : stringsSplitDot "" = [""] := by rfl
example : stringsJoinDot ["bad", "domain", ""] = "bad.domain." := by rfl
example : inList "child.bad.domain." ["bad.domain."] = true := by rfl
example : inList "bad.domain." ["child.bad.domain."] = false := by rfl
example : inList "anything.tld." ["."] = true := by rfl
example : inList "anything.tld" ["."] = false := by rfl

/-- The walk of `inList` succeeds exactly when one of the probed suffixes
is a member of the table. -/
theorem inListAux_iff (T parts : List String) :
    inListAux T parts = true ↔ ∃ s ∈ ancestorSuffixes parts, s ∈ T := by
  induction parts with
  | nil => simp [inListAux, ancestorSuffixes]
  | cons p rest ih =>
    simp only [inListAux, ancestorSuffixes, List.mem_cons, exists_eq_or_imp]
    by_cases h : T.contains (canonSuffix (p :: rest)) = true
    · simp only [h, if_true, true_iff]
      exact Or.inl (by simpa using h)
    · rw [if_neg h, ih]
      have h2 : canonSuffix (p :: rest) ∉ T := fun hm => h (by simpa using hm)
      constructor
      · exact fun hex => Or.inr hex
      · rintro (hc | hex)
        · exact absurd hc h2
        · exact hex

/-- One-step unfolding of `splitChars` on a cons cell. -/
theorem splitChars_cons (sep c : Char) (cs : List Char) :
    splitChars sep (c :: cs) =
      if c = sep then [] :: splitChars sep cs
      else
        match splitChars sep cs with
        | [] => [[c]]
        | h :: t => (c :: h) :: t := rfl

/-- Splitting never yields the empty list of parts. -/
theorem splitChars_ne_nil (sep : Char) (cs : List Char) :
    splitChars sep cs ≠ [] := by
  cases cs with
  | nil => simp [splitChars]
  | cons c cs =>
    simp only [splitChars]
    by_cases h : c = sep
    · simp [h]
    · rw [if_neg h]
      cases splitChars sep cs <;> simp

/-- No part produced by splitting contains the separator. -/
theorem mem_splitChars_not_sep (sep : Char) (cs : List Char) :
    ∀ l ∈ splitChars sep cs, sep ∉ l := by
  induction cs with
  | nil =>
    intro l hl
    simp [splitChars] at hl
    simp [hl]
  | cons c cs ih =>
    intro l hl
    simp only [splitChars] at hl
    by_cases h : c = sep
    · rw [if_pos h] at hl
      rcases List.mem_cons.mp hl with rfl | hl2
      · simp
      · exact ih l hl2
    · rw [if_neg h] at hl
      rcases hr : splitChars sep cs with _ | ⟨hd, tl⟩
      · exact absurd hr (splitChars_ne_nil sep cs)
      · rw [hr] at hl
        simp only at hl
        rcases List.mem_cons.mp hl with rfl | hl2
        · intro hmem
          rcases List.mem_cons.mp hmem with rfl | hmem2
          · exact h rfl
          · exact ih hd (by rw [hr]; exact List.mem_cons_self hd tl) hmem2
        · exact ih l (by rw [hr]; exact List.mem_cons_of_mem hd hl2)

/-- Splitting yields one part more than the number of separator
occurrences. -/
theorem splitChars_length (sep : Char) (cs : List Char) :
    (splitChars sep cs).length = cs.count sep + 1 := by
  induction cs with
  | nil => simp [splitChars]
  | cons c cs ih =>
    simp only [splitChars]
    by_cases h : c = sep
    · subst h
      simp [List.count_cons, ih]
    · rcases hr : splitChars sep cs with _ | ⟨hd, tl⟩
      · exact absurd hr (splitChars_ne_nil sep cs)
      · rw [hr] at ih
        simp only [if_neg h]
        simp only [List.length_cons] at ih ⊢
        rw [List.count_cons]
        simp [h, ih]

/-- The last part of a split is empty exactly when the input is empty or
ends with the separator. -/
theorem splitChars_getLast?_eq_nil_iff (sep : Char) (cs : List Char) :
    (splitChars sep cs).getLast? = some []
      ↔ (cs = [] ∨ cs.getLast? = some sep) := by
  induction cs with
  | nil => simp [splitChars]
  | cons c cs ih =>
    cases cs with
    | nil =>
      by_cases h : c = sep
      · subst h
        simp [splitChars_cons, splitChars]
      · rw [splitChars_cons, if_neg h]
        simp [splitChars, h]
    | cons d ds =>
      rw [List.getLast?_cons_cons, splitChars_cons]
      rcases hr : splitChars sep (d :: ds) with _ | ⟨hd, tl⟩
      · exact absurd hr (splitChars_ne_nil sep (d :: ds))
      rw [hr] at ih
      by_cases h : c = sep
      · rw [if_pos h, List.getLast?_cons_cons, ih]
        simp
      · rw [if_neg h]
        cases tl with
        | nil =>
          change ([c :: hd] : List (List Char)).getLast? = some [] ↔ _
          simp only [List.getLast?_singleton] at ih ⊢
          constructor
          · intro hx
            exact absurd (by injection hx) (by simp)
          · intro hx
            rcases hx with hx | hx
            · cases hx
            · have hmem : sep ∈ d :: ds := List.mem_of_getLast?_eq_some hx
              have hcount : 0 < (d :: ds).count sep :=
                List.count_pos_iff.mpr hmem
              have hlen := splitChars_length sep (d :: ds)
              rw [hr] at hlen
              simp at hlen
              omega
        | cons t1 ts =>
          change ((c :: hd) :: t1 :: ts : List (List Char)).getLast?
            = some [] ↔ _
          rw [List.getLast?_cons_cons] at ih ⊢
          rw [ih]
          simp

/-- A joined list of parts is the empty string exactly when it is the
single empty part. -/
theorem joinChars_eq_nil_iff (sep : Char) (l : List Char)
    (ls : List (List Char)) :
    joinChars sep (l :: ls) = [] ↔ (l = [] ∧ ls = []) := by
  cases ls with
  | nil => simp [joinChars]
  | cons l2 ls2 => simp [joinChars]

/-- When no part contains the separator, the join is the one-character
string `[sep]` exactly for the two empty parts `[[], []]`. -/
theorem joinChars_eq_sep_iff (sep : Char) (l : List Char)
    (ls : List (List Char)) (h : ∀ x ∈ l :: ls, sep ∉ x) :
    joinChars sep (l :: ls) = [sep] ↔ (l = [] ∧ ls = [[]]) := by
  cases ls with
  | nil =>
    simp only [joinChars]
    constructor
    · intro he
      have : sep ∈ l := he ▸ List.mem_singleton_self sep
      exact absurd this (h l (List.mem_cons_self _ _))
    · rintro ⟨rfl, hls⟩
      cases hls
  | cons l2 ls2 =>
    simp only [joinChars]
    constructor
    · intro he
      cases l with
      | nil =>
        simp only [List.nil_append, List.cons.injEq] at he
        have h2 := (joinChars_eq_nil_iff sep l2 ls2).mp he.2
        rw [h2.1, h2.2]
        exact ⟨rfl, rfl⟩
      | cons a as =>
        simp only [List.cons_append, List.cons.injEq] at he
        exact absurd he.2 (by simp)
    · rintro ⟨rfl, he⟩
      rw [List.cons.injEq] at he
      rw [he.1, he.2]
      simp [joinChars]

/-- A list of strings maps to the single empty character list exactly
when it is the single empty string. -/
theorem map_data_eq_single_nil_iff (rest : List String) :
    rest.map String.data = [[]] ↔ rest = [""] := by
  cases rest with
  | nil => simp
  | cons r rs =>
    cases rs with
    | nil =>
      simp only [List.map_cons, List.map_nil, List.cons.injEq, and_true]
      constructor
      · intro h
        exact String.ext h
      · rintro rfl
        rfl
    | cons r2 rs2 => simp

/-- When no part contains a dot, the canonical suffix of a non-empty part
list is the root `"."` exactly when the parts are `[""]` (the empty join,
substituted by the root) or `["", ""]` (the literal join `"."`). -/
theorem canonSuffix_eq_root_iff (p : String) (rest : List String)
    (h : ∀ s ∈ p :: rest, '.' ∉ s.data) :
    canonSuffix (p :: rest) = "." ↔ (p = "" ∧ (rest = [] ∨ rest = [""])) := by
  have hdata : ∀ x ∈ p.data :: rest.map String.data, '.' ∉ x := by
    intro x hx
    rcases List.mem_cons.mp hx with rfl | hx2
    · exact h p (List.mem_cons_self _ _)
    · obtain ⟨s, hs, rfl⟩ := List.mem_map.mp hx2
      exact h s (List.mem_cons_of_mem _ hs)
  unfold canonSuffix stringsJoinDot
  simp only [List.map_cons]
  by_cases hJ : joinChars '.' (p.data :: rest.map String.data) = []
  · rw [hJ]
    simp only [String.length, List.length_nil, if_pos rfl]
    have h2 := (joinChars_eq_nil_iff '.' p.data (rest.map String.data)).mp hJ
    have hp : p = "" := String.ext h2.1
    have hrest : rest = [] := List.map_eq_nil_iff.mp h2.2
    simp [hp, hrest]
  · have hlen : (String.mk (joinChars '.' (p.data :: rest.map String.data))).length ≠ 0 := by
      simpa [String.length, List.length_eq_zero] using hJ
    rw [if_neg hlen]
    constructor
    · intro he
      have hJeq : joinChars '.' (p.data :: rest.map String.data) = ['.'] := by
        have := congrArg String.data he
        simpa using this
      have h2 := (joinChars_eq_sep_iff '.' p.data (rest.map String.data) hdata).mp hJeq
      exact ⟨String.ext h2.1, Or.inr ((map_data_eq_single_nil_iff rest).mp h2.2)⟩
    · rintro ⟨rfl, hrest | hrest⟩
      · exact absurd (by simp [hrest, joinChars]) hJ
      · subst hrest
        rfl

/-- The root `"."` is among the probed suffixes of a dot-free part list
exactly when the last part is the empty string. -/
theorem root_mem_ancestorSuffixes_iff (parts : List String)
    (h : ∀ s ∈ parts, '.' ∉ s.data) :
    "." ∈ ancestorSuffixes parts ↔ parts.getLast? = some "" := by
  induction parts with
  | nil => simp [ancestorSuffixes]
  | cons p rest ih =>
    have hrest : ∀ s ∈ rest, '.' ∉ s.data :=
      fun s hs => h s (List.mem_cons_of_mem _ hs)
    simp only [ancestorSuffixes, List.mem_cons]
    rw [show ("." = canonSuffix (p :: rest)) ↔ (canonSuffix (p :: rest) = ".") from eq_comm]
    rw [canonSuffix_eq_root_iff p rest h, ih hrest]
    cases rest with
    | nil =>
      simp only [List.getLast?_singleton, List.getLast?_nil]
      constructor
      · rintro (⟨rfl, _⟩ | hx)
        · rfl
        · simp at hx
      · intro hx
        simp only [Option.some.injEq] at hx
        subst hx
        exact Or.inl ⟨rfl, by simp⟩
    | cons q rs =>
      rw [List.getLast?_cons_cons]
      constructor
      · rintro (⟨rfl, hx | hx⟩ | hx)
        · cases hx
        · rw [hx]
          rfl
        · exact hx
      · intro hx
        exact Or.inr hx

/-- The suffix walk of `inList` probes the canonical root `"."` exactly
when the name is the empty string or ends with a dot. -/
theorem root_probed_iff (name : String) :
    "." ∈ ancestorSuffixesOf name ↔ (name = "" ∨ endsWithDot name) := by
  have h : ∀ s ∈ stringsSplitDot name, '.' ∉ s.data := by
    intro s hs
    simp only [stringsSplitDot, List.mem_map] at hs
    obtain ⟨l, hl, rfl⟩ := hs
    exact mem_splitChars_not_sep '.' name.data l hl
  rw [ancestorSuffixesOf, root_mem_ancestorSuffixes_iff _ h]
  rw [stringsSplitDot, List.getLast?_map]
  rw [Option.map_eq_some']
  constructor
  · rintro ⟨a, ha, hmk⟩
    have ha2 : a = [] := by
      have := congrArg String.data hmk
      simpa using this
    subst ha2
    rcases (splitChars_getLast?_eq_nil_iff '.' name.data).mp ha with hx | hx
    · exact Or.inl (String.ext hx)
    · exact Or.inr hx
  · intro hx
    refine ⟨[], ?_, rfl⟩
    apply (splitChars_getLast?_eq_nil_iff '.' name.data).mpr
    rcases hx with hx | hx
    · exact Or.inl (by rw [hx])
    · exact Or.inr hx

/-- C1: `inList(n, T)` is true iff some ancestor suffix of `n` — obtained
by dropping leading labels of `n`, including `n` itself and, for a
fully-qualified name, the canonical root `"."` — is a member of `T`; in
particular the entry `"domain."` blocks the descendant
`"child.bad.domain."`, but the entry `"child.bad.domain."` does not match
the parent `"bad.domain."`. -/
theorem matches_iff_ancestor_suffix (name : String) (T : List String) :
    (inList name T = true ↔ ∃ s ∈ ancestorSuffixesOf name, s ∈ T)
    ∧ inList "child.bad.domain." ["domain."] = true
    ∧ inList "bad.domain." ["child.bad.domain."] = false :=
  ⟨inListAux_iff T (stringsSplitDot name), by rfl, by rfl⟩

/-- C2: a non-localhost name that matches both the block table and the
allow table is never answered with a block response: `ServeDNS` writes
nothing, delegates to the next stage and returns the next stage's
result. -/
theorem allow_overrides_block (b : BL) (name : String) (writeOk : Bool)
    (next : NextResult)
    (hloc : name ≠ "localhost.")
    (hb : inList name b.blockDomains = true)
    (ha : inList name b.allowDomains = true) :
    (ServeDNS b name writeOk next).wroteBlockResponse = false
    ∧ (ServeDNS b name writeOk next).writeAttempts = 0
    ∧ (ServeDNS b name writeOk next).calledNext = true
    ∧ (ServeDNS b name writeOk next).rcode = next.rcode
    ∧ (ServeDNS b name writeOk next).err = next.err := by
  simp [ServeDNS, shouldBlock, hloc, hb, ha]

/-- Witness for `allow_overrides_block`: a name below a blocked parent
that is itself on the allow list. -/
theorem allow_overrides_block_witness :
    (("x.bad.domain." : String) ≠ "localhost."
      ∧ inList "x.bad.domain." ["bad.domain."] = true
      ∧ inList "x.bad.domain." ["x.bad.domain."] = true)
    ∧ ((ServeDNS ⟨["bad.domain."], ["x.bad.domain."], false, 3⟩
          "x.bad.domain." true ⟨0, false⟩).wroteBlockResponse = false
      ∧ (ServeDNS ⟨["bad.domain."], ["x.bad.domain."], false, 3⟩
          "x.bad.domain." true ⟨0, false⟩).writeAttempts = 0
      ∧ (ServeDNS ⟨["bad.domain."], ["x.bad.domain."], false, 3⟩
          "x.bad.domain." true ⟨0, false⟩).calledNext = true
      ∧ (ServeDNS ⟨["bad.domain."], ["x.bad.domain."], false, 3⟩
          "x.bad.domain." true ⟨0, false⟩).rcode = (⟨0, false⟩ : NextResult).rcode
      ∧ (ServeDNS ⟨["bad.domain."], ["x.bad.domain."], false, 3⟩
          "x.bad.domain." true ⟨0, false⟩).err = (⟨0, false⟩ : NextResult).err) :=
  ⟨⟨by decide, by rfl, by rfl⟩,
    allow_overrides_block ⟨["bad.domain."], ["x.bad.domain."], false, 3⟩
      "x.bad.domain." true ⟨0, false⟩ (by decide) (by rfl) (by rfl)⟩

/-- C3: for every pair of tables — including tables explicitly containing
`"localhost."` — the exact name `"localhost."` classifies as
`(blocked := false, allowed := false)` and `ServeDNS` always passes the
query to the next stage. -/
theorem localhost_never_blocked (b : BL) (writeOk : Bool)
    (next : NextResult) :
    shouldBlock b "localhost." = (false, false)
    ∧ (ServeDNS b "localhost." writeOk next).wroteBlockResponse = false
    ∧ (ServeDNS b "localhost." writeOk next).calledNext = true
    ∧ (ServeDNS b "localhost." writeOk next).rcode = next.rcode
    ∧ (ServeDNS b "localhost." writeOk next).err = next.err
    ∧ shouldBlock ⟨["localhost."], ["localhost."], false, 3⟩ "localhost."
        = (false, false) := by
  refine ⟨rfl, ?_, ?_, ?_, ?_, rfl⟩ <;> simp [ServeDNS, shouldBlock]

/-- C9: once the background reload task has observed the shutdown signal
(the `parseChan` case of the select loop), it is stopped, and from the
stopped state no sequence of further events ever fires a rebuild or
leaves the stopped state. -/
theorem no_rebuild_after_shutdown_signal (evs : List TaskEvent) :
    taskStep TaskState.running TaskEvent.signal = (TaskState.stopped, false)
    ∧ taskRun TaskState.stopped evs = (TaskState.stopped, 0) := by
  refine ⟨rfl, ?_⟩
  induction evs with
  | nil => rfl
  | cons e es ih => cases e <;> simp [taskRun, taskStep, ih]

/-- C7: the `reload` directive rejects every negative parsed duration as
a configuration error, and with a zero period no background task is
started, so the number of table loads over any event sequence is exactly
the single startup load. -/
theorem reload_negative_rejected_and_zero_disables (arg : String)
    (parseDuration : String → Option Int) (d : Int)
    (hp : parseDuration arg = some d) (hneg : d < 0) :
    (∃ e, parseReloadArg [arg] parseDuration = Except.error e)
    ∧ periodicHostsUpdate 0 = none
    ∧ (∀ evs, totalLoads 0 evs = 1) := by
  refine ⟨⟨"invalid negative duration for reload " ++ arg, ?_⟩, rfl,
    fun evs => rfl⟩
  simp [parseReloadArg, hp, hneg]

/-- Witness for `reload_negative_rejected_and_zero_disables` at a
concrete negative duration. -/
theorem reload_negative_witness :
    ((fun _ : String => some (-5 : Int)) "-5s" = some (-5 : Int)
      ∧ (-5 : Int) < 0)
    ∧ ((∃ e, parseReloadArg ["-5s"] (fun _ : String => some (-5 : Int))
          = Except.error e)
      ∧ periodicHostsUpdate 0 = none
      ∧ (∀ evs, totalLoads 0 evs = 1)) :=
  ⟨⟨rfl, by decide⟩,
    reload_negative_rejected_and_zero_disables "-5s"
      (fun _ => some (-5 : Int)) (-5) rfl (by decide)⟩

/-- C6: a non-localhost name that matches the block table and not the
allow table is answered directly: `ServeDNS` writes a response with the
configured block response code, returns that code with no error and does
not invoke the next stage; the configured code is `dns.RcodeNameError`
(NXDOMAIN) by default, `dns.RcodeRefused` when `"refused"` is configured,
and every other `block_response` value is rejected at setup. -/
theorem block_returns_configured_code (b : BL) (name : String)
    (writeOk : Bool) (next : NextResult)
    (hloc : name ≠ "localhost.")
    (hb : inList name b.blockDomains = true)
    (ha : inList name b.allowDomains = false) :
    (ServeDNS b name writeOk next).wroteBlockResponse = true
    ∧ (ServeDNS b name writeOk next).calledNext = false
    ∧ (ServeDNS b name writeOk next).rcode = b.blockResponse
    ∧ (ServeDNS b name writeOk next).err = false
    ∧ New.blockResponse = RcodeNameError
    ∧ getBlockResponseCode "nxdomain" = Except.ok RcodeNameError
    ∧ getBlockResponseCode "refused" = Except.ok RcodeRefused
    ∧ (∀ s, s ≠ "nxdomain" → s ≠ "refused" →
        ∃ e, getBlockResponseCode s = Except.error e) := by
  refine ⟨?_, ?_, ?_, ?_, rfl, rfl, rfl, fun s h1 h2 => ?_⟩
  · simp [ServeDNS, shouldBlock, hloc, hb, ha]
  · simp [ServeDNS, shouldBlock, hloc, hb, ha]
  · simp [ServeDNS, shouldBlock, hloc, hb, ha]
  · simp [ServeDNS, shouldBlock, hloc, hb, ha]
  · refine ⟨"unknown response code " ++ s ++ ", must be either nxdomain or refused", ?_⟩
    simp [getBlockResponseCode, h1, h2]

/-- Witness for `block_returns_configured_code` at a blocked name with
empty allow table. -/
theorem block_returns_configured_code_witness :
    (("bad.domain." : String) ≠ "localhost."
      ∧ inList "bad.domain." ["bad.domain."] = true
      ∧ inList "bad.domain." ([] : List String) = false)
    ∧ ((ServeDNS ⟨["bad.domain."], [], false, 3⟩ "bad.domain." true
          ⟨0, false⟩).wroteBlockResponse = true
      ∧ (ServeDNS ⟨["bad.domain."], [], false, 3⟩ "bad.domain." true
          ⟨0, false⟩).calledNext = false
      ∧ (ServeDNS ⟨["bad.domain."], [], false, 3⟩ "bad.domain." true
          ⟨0, false⟩).rcode
            = (⟨["bad.domain."], [], false, 3⟩ : BL).blockResponse
      ∧ (ServeDNS ⟨["bad.domain."], [], false, 3⟩ "bad.domain." true
          ⟨0, false⟩).err = false
      ∧ New.blockResponse = RcodeNameError
      ∧ getBlockResponseCode "nxdomain" = Except.ok RcodeNameError
      ∧ getBlockResponseCode "refused" = Except.ok RcodeRefused
      ∧ (∀ s, s ≠ "nxdomain" → s ≠ "refused" →
          ∃ e, getBlockResponseCode s = Except.error e)) :=
  ⟨⟨by decide, by rfl, by rfl⟩,
    block_returns_configured_code ⟨["bad.domain."], [], false, 3⟩
      "bad.domain." true ⟨0, false⟩ (by decide) (by rfl) (by rfl)⟩

/-- C8: on a blocked query whose response write fails, the failure is
only logged — the outcome is identical to the successful-write outcome
except for the logged flag: the block counters are still incremented,
the configured block response code is still returned with no error, and
the write is attempted exactly once (no retry). -/
theorem write_failure_only_logged (b : BL) (name : String)
    (next : NextResult)
    (hloc : name ≠ "localhost.")
    (hb : inList name b.blockDomains = true)
    (ha : inList name b.allowDomains = false) :
    ServeDNS b name false next
      = { ServeDNS b name true next with loggedWriteError := true }
    ∧ (ServeDNS b name false next).writeAttempts = 1
    ∧ (ServeDNS b name false next).rcode = b.blockResponse
    ∧ (ServeDNS b name false next).err = false
    ∧ (ServeDNS b name false next).blockCountInc = 1
    ∧ (ServeDNS b name false next).blockDomainCountInc
        = (if b.domainMetrics then 1 else 0) := by
  refine ⟨?_, ?_, ?_, ?_, ?_, ?_⟩ <;>
    simp [ServeDNS, shouldBlock, hloc, hb, ha]

/-- Witness for `write_failure_only_logged` at a concrete blocked
query. -/
theorem write_failure_only_logged_witness :
    (("bad.domain." : String) ≠ "localhost."
      ∧ inList "bad.domain." ["bad.domain."] = true
      ∧ inList "bad.domain." ([] : List String) = false)
    ∧ (ServeDNS ⟨["bad.domain."], [], true, 5⟩ "bad.domain." false ⟨0, false⟩
        = { ServeDNS ⟨["bad.domain."], [], true, 5⟩ "bad.domain." true
              ⟨0, false⟩ with loggedWriteError := true }
      ∧ (ServeDNS ⟨["bad.domain."], [], true, 5⟩ "bad.domain." false
          ⟨0, false⟩).writeAttempts = 1
      ∧ (ServeDNS ⟨["bad.domain."], [], true, 5⟩ "bad.domain." false
          ⟨0, false⟩).rcode = (⟨["bad.domain."], [], true, 5⟩ : BL).blockResponse
      ∧ (ServeDNS ⟨["bad.domain."], [], true, 5⟩ "bad.domain." false
          ⟨0, false⟩).err = false
      ∧ (ServeDNS ⟨["bad.domain."], [], true, 5⟩ "bad.domain." false
          ⟨0, false⟩).blockCountInc = 1
      ∧ (ServeDNS ⟨["bad.domain."], [], true, 5⟩ "bad.domain." false
          ⟨0, false⟩).blockDomainCountInc
            = (if (⟨["bad.domain."], [], true, 5⟩ : BL).domainMetrics
                then 1 else 0)) :=
  ⟨⟨by decide, by rfl, by rfl⟩,
    write_failure_only_logged ⟨["bad.domain."], [], true, 5⟩ "bad.domain."
      ⟨0, false⟩ (by decide) (by rfl) (by rfl)⟩

/-- C4 counterexample: a reload in which the block-list load succeeds and
the allow-list load fails is NOT a no-op — the block table is replaced
while the allow table is kept, a partial update, refuting the claim that
any failing reload leaves both tables exactly as they were. -/
theorem readBlocklist_partial_update_counterexample :
    readBlocklist "allow.txt" (Except.ok ["new.block."])
        (Except.error "fetch failed") ⟨["old.block."], ["old.allow."]⟩
      ≠ ⟨["old.block."], ["old.allow."]⟩ := by
  decide

/-- C4 amended: if the block-list load fails, the invocation leaves both
tables untouched; but if the block-list load succeeds and the allow-list
load then fails, the block table has already been replaced and only the
allow table is preserved — a partial update. -/
theorem readBlocklist_failure_behavior (e : String)
    (la : Except String (List String)) (t : Tables) (bl : List String)
    (loc : String) (hloc : loc ≠ "") :
    readBlocklist loc (Except.error e) la t = t
    ∧ readBlocklist loc (Except.ok bl) (Except.error e) t
        = { t with blockDomains := bl } := by
  exact ⟨rfl, by simp [readBlocklist, hloc]⟩

/-- Witness for `readBlocklist_failure_behavior` at concrete tables. -/
theorem readBlocklist_failure_behavior_witness :
    ("allow.txt" : String) ≠ ""
    ∧ (readBlocklist "allow.txt" (Except.error "boom")
          (Except.ok ([] : List String)) ⟨["a."], ["b."]⟩ = ⟨["a."], ["b."]⟩
      ∧ readBlocklist "allow.txt" (Except.ok ["n."]) (Except.error "boom")
          ⟨["a."], ["b."]⟩ = ⟨["n."], ["b."]⟩) :=
  ⟨by decide,
    readBlocklist_failure_behavior "boom" (Except.ok []) ⟨["a."], ["b."]⟩
      ["n."] "allow.txt" (by decide)⟩

/-- C5 counterexample: a configured local path whose file does not exist
is ACCEPTED by `checkFileorURL` (only a warning is logged), so setup does
not fail — refuting the claim that an unreachable configured file is a
setup error. -/
theorem unreachable_file_accepted_counterexample :
    checkFileorURL false StatResult.errNotExist "missing-blocklist.txt"
      = Except.ok "missing-blocklist.txt" := by
  rfl

/-- C5 amended: `checkFileorURL` fails only when the location is not
URI-parsable and `os.Stat` fails with an error other than not-exist; a
URI-parsable location (any URL, and any absolute local path) is accepted
unchecked, and a missing file or a directory is accepted with a
warning. -/
theorem checkFileorURL_error_behavior (file msg : String) :
    checkFileorURL false (StatResult.errOther msg) file
      = Except.error ("unable to access hosts file " ++ file ++ ": " ++ msg)
    ∧ checkFileorURL false StatResult.errNotExist file = Except.ok file
    ∧ (∀ d, checkFileorURL false (StatResult.statOk d) file = Except.ok file)
    ∧ (∀ st, checkFileorURL true st file = Except.ok file) :=
  ⟨rfl, rfl, fun _ => rfl, fun _ => rfl⟩

/-- C10: the suffix walk of `inList` probes the canonical root `"."` iff
the query name is the empty string or ends with the delimiter `"."`;
consequently, for every non-empty name without a trailing dot, a table
containing only the root entry `"."` never matches. -/
theorem root_probe_requires_trailing_dot (name : String) :
    ("." ∈ ancestorSuffixesOf name ↔ (name = "" ∨ endsWithDot name))
    ∧ (name ≠ "" → ¬ endsWithDot name → inList name ["."] = false) := by
  refine ⟨root_probed_iff name, fun h1 h2 => ?_⟩
  cases hx : inList name ["."] with
  | false => rfl
  | true =>
    obtain ⟨s, hs, hsT⟩ :=
      (inListAux_iff ["."] (stringsSplitDot name)).mp hx
    have hs2 : s = "." := by simpa using hsT
    subst hs2
    rcases (root_probed_iff name).mp hs with h | h
    · exact absurd h h1
    · exact absurd h h2

end Blocklist
